import Mathlib

/-!
Verification of the configuration sanitisation module
(lib/util/config/sanitised.go of the benthos repository).

The module reduces a generic configuration record to a discriminated
form holding a "type" field and at most one payload entry, and renders
the reduced record to YAML and JSON with the "type" field first.

Modelling choices:
* Generic values (the Go `interface\x7b\x7d` results of a yaml round trip)
  are the inductive `JValue`: null, booleans, integers, strings,
  sequences and string-keyed mappings.  Floating point scalars are not
  needed by any claim and are omitted.
* Go maps (`map[string]interface\x7b\x7d`) are association lists
  `List (String × JValue)`.  A Go map has no duplicate keys; theorems
  that need this carry a `nodupKeys` hypothesis.  Go map iteration
  order is unspecified; the iteration loops are modelled as structural
  recursion over the list, and independence from the order is proved
  separately (claim C5).
* `json.Marshal` is an external collaborator that may fail.  The JSON
  renderer is therefore parametrised by an encoder
  `enc : JValue → Except String String`; the concrete total encoder
  `jsonEncode` models the standard JSON encoding of generic values.
-/

set_option autoImplicit false

namespace Config

/-- Generic value model for the results of a yaml round trip into
`map[string]interface\x7b\x7d`: null, booleans, numbers, strings,
sequences and string-keyed mappings. -/
inductive JValue where
  | null : JValue
  | bool : Bool → JValue
  | num : Int → JValue
  | str : String → JValue
  | arr : List JValue → JValue
  | obj : List (String × JValue) → JValue
  deriving Repr

/-- The Go comparison `v != nil` on an `interface\x7b\x7d` value holding a
generic yaml value: true exactly when the value is the null value. -/
def JValue.isNull : JValue → Bool
  | JValue.null => true
  | _ => false

/-- The generic record produced by the generify step
(`yaml.Unmarshal` into `map[string]interface\x7b\x7d`). -/
abbrev GenericRecord := List (String × JValue)

/-- `Sanitised` is the reduced record type of the Go module, a
`map[string]interface\x7b\x7d`. -/
abbrev Sanitised := List (String × JValue)

/-- Go map lookup `m[k]`: `none` when the key is absent. -/
def mapGet (m : List (String × JValue)) (k : String) : Option JValue :=
  (m.find? (fun p => p.1 == k)).map (fun p => p.2)

/-- Go map indexing `m[k]` where a missing key yields the zero value
(`nil`, modelled as `JValue.null`). -/
def mapGetD (m : List (String × JValue)) (k : String) : JValue :=
  (mapGet m k).getD JValue.null

/-- Go map assignment `m[k] = v`: replaces the binding when the key is
present, appends it otherwise. -/
def mapSet (m : List (String × JValue)) (k : String) (v : JValue) :
    List (String × JValue) :=
  if m.any (fun p => p.1 == k) then
    m.map (fun p => if p.1 == k then (k, v) else p)
  else
    m ++ [(k, v)]

/-- The key list of a record has no duplicates (true of every Go map). -/
abbrev nodupKeys (m : List (String × JValue)) : Prop :=
  (m.map Prod.fst).Nodup

/-- The error message of `SanitizeComponent` for a missing or
non-string type field. -/
def missingTypeErr : String :=
  "attempted to sanitize config without a type field"

/-- `SanitizeComponent`, embedded after the generify step: the Go
function first yaml round-trips its argument into the generic map
`hashMap`; that external step is the input here.  It then requires
`hashMap["type"]` to be a string, and selects the payload: the entry
named after the discriminant if present, else a non-null `"plugin"`
entry, else nothing. -/
def SanitizeComponent (hashMap : GenericRecord) : Except String Sanitised :=
  match mapGet hashMap "type" with
  | some (JValue.str typeStr) =>
    let sanitMap : Sanitised := mapSet [] "type" (JValue.str typeStr)
    match mapGet hashMap typeStr with
    | some v => Except.ok (mapSet sanitMap typeStr v)
    | none =>
      match mapGet hashMap "plugin" with
      | some pluginConf =>
        if pluginConf.isNull then
          Except.ok sanitMap
        else
          Except.ok (mapSet sanitMap "plugin" pluginConf)
      | none => Except.ok sanitMap
  | _ => Except.error missingTypeErr

/-! ### The concrete JSON value encoder

`json.Marshal` applied to a single generic value.  This is the external
standard encoder; values are encoded recursively, strings with the
usual escaping.  Only its totality on `JValue` and its output on small
concrete values matter to the claims. -/

/-- JSON escaping of one character of a string value. -/
def escapeJSONChar (c : Char) : String :=
  if c = '"' then "\\\""
  else if c = '\\' then "\\\\"
  else if c = '\n' then "\\n"
  else if c = '\t' then "\\t"
  else if c = '\r' then "\\r"
  else String.singleton c

/-- JSON encoding of a string literal, quotes included. -/
def encodeJSONString (s : String) : String :=
  "\"" ++ String.join (s.data.map escapeJSONChar) ++ "\""

mutual

/-- JSON encoding of a generic value (`json.Marshal`). -/
def jsonEncode : JValue → String
  | JValue.null => "null"
  | JValue.bool b => if b then "true" else "false"
  | JValue.num n => toString n
  | JValue.str s => encodeJSONString s
  | JValue.arr xs => "[" ++ jsonEncodeArr xs ++ "]"
  | JValue.obj fs => "\x7b" ++ jsonEncodeObj fs ++ "\x7d"

/-- JSON encoding of the elements of a sequence, comma separated. -/
def jsonEncodeArr : List JValue → String
  | [] => ""
  | [x] => jsonEncode x
  | x :: y :: xs => jsonEncode x ++ "," ++ jsonEncodeArr (y :: xs)

/-- JSON encoding of the fields of a nested mapping, comma separated. -/
def jsonEncodeObj : List (String × JValue) → String
  | [] => ""
  | [(k, v)] => encodeJSONString k ++ ":" ++ jsonEncode v
  | (k, v) :: f :: fs =>
    encodeJSONString k ++ ":" ++ jsonEncode v ++ "," ++ jsonEncodeObj (f :: fs)

end

/-! ### MarshalJSON -/

/-- The first loop of `MarshalJSON`: range over the record, single out
the value under "type" (`nil` when absent) and gather the remaining
keys.  Go map iteration order is unspecified; the recursion models one
order and order independence is proved separately. -/
def collectTypeAndKeys : Sanitised → JValue × List String
  | [] => (JValue.null, [])
  | (k, v) :: rest =>
    let r := collectTypeAndKeys rest
    if k == "type" then (v, r.2) else (r.1, k :: r.2)

/-- The comparison used by `sort.Strings`: lexicographic order on the
character sequences of the two strings (Go compares the UTF-8 bytes,
which agrees with codepoint order for valid UTF-8). -/
def strRel : String → String → Prop := fun a b => a.data ≤ b.data

instance : DecidableRel strRel := fun a b =>
  (inferInstance : Decidable (a.data ≤ b.data))

instance : IsTotal String strRel := ⟨fun a b => le_total a.data b.data⟩

instance : IsTrans String strRel := ⟨fun _ _ _ h1 h2 => le_trans h1 h2⟩

instance : IsAntisymm String strRel := ⟨fun a b h1 h2 => by
  have h3 := le_antisymm h1 h2
  cases a
  cases b
  simp only at h3
  simp [h3]⟩

/-- The `sort.Strings(keys)` call: lexicographic sort of the non-type
keys.  The sorted result is unique for a given multiset of keys, so the
choice of sorting algorithm is immaterial. -/
def sortKeys (ks : List String) : List String :=
  List.insertionSort strRel ks

/-- The second loop of `MarshalJSON`: for each key, write
`"<key>":<encoded value>` and a comma after every entry but the last;
an encoder failure aborts the render. -/
def encodeEntries (enc : JValue → Except String String) (s : Sanitised) :
    List String → Except String String
  | [] => Except.ok ""
  | k :: rest =>
    match enc (mapGetD s k) with
    | Except.error e => Except.error e
    | Except.ok valBytes =>
      match rest with
      | [] => Except.ok ("\"" ++ k ++ "\":" ++ valBytes)
      | _ :: _ =>
        match encodeEntries enc s rest with
        | Except.error e => Except.error e
        | Except.ok restBytes =>
          Except.ok ("\"" ++ k ++ "\":" ++ valBytes ++ "," ++ restBytes)

/-- `Sanitised.MarshalJSON`, parametrised by the external value encoder
`enc` standing for `json.Marshal`.  Mirrors the Go method: partition
the record into the type value and the other keys, sort the keys, then
assemble `\x7b`, the `"type":` pair when the type value is non-nil (with a
comma when other keys follow), the other entries, and `\x7d`. -/
def Sanitised.MarshalJSONWith (enc : JValue → Except String String)
    (s : Sanitised) : Except String String :=
  let tk := collectTypeAndKeys s
  let keys := sortKeys tk.2
  let headPart : Except String String :=
    if tk.1.isNull then Except.ok ""
    else
      match enc tk.1 with
      | Except.error e => Except.error e
      | Except.ok typeBytes =>
        Except.ok ("\"type\":" ++ typeBytes ++
          (if keys.length > 0 then "," else ""))
  match headPart with
  | Except.error e => Except.error e
  | Except.ok hd =>
    match encodeEntries enc s keys with
    | Except.error e => Except.error e
    | Except.ok body => Except.ok ("\x7b" ++ hd ++ body ++ "\x7d")

/-- `Sanitised.MarshalJSON` with the concrete standard encoder. -/
def Sanitised.MarshalJSON (s : Sanitised) : Except String String :=
  Sanitised.MarshalJSONWith (fun v => Except.ok (jsonEncode v)) s

/-! ### MarshalYAML -/

/-- The value returned by `Sanitised.MarshalYAML`: the anonymous Go
struct with a `Type` field tagged yaml:"type" declared first and an
inline `SanitForYAML` map after it. -/
structure YAMLStruct where
  type : JValue
  inlined : List (String × JValue)
  deriving Repr

/-- `Sanitised.MarshalYAML`: range over the record, single out the
value under "type" (`nil` when absent) and collect every other entry
into the inline map, then return the struct. -/
def Sanitised.MarshalYAML : Sanitised → YAMLStruct
  | [] => { type := JValue.null, inlined := [] }
  | (k, v) :: rest =>
    let r := Sanitised.MarshalYAML rest
    if k == "type" then { type := v, inlined := r.inlined }
    else { type := r.type, inlined := (k, v) :: r.inlined }

/-- The field sequence of the emitted YAML document.  The yaml library
writes struct fields in declaration order and expands an inline map as
sibling fields at the same level, so the document starts with the
`type` field (present even when its value is null, as the field has no
omitempty option) followed by the inlined entries. -/
def yamlFields (o : YAMLStruct) : List (String × JValue) :=
  ("type", o.type) :: o.inlined

/-! ### Spec-side rendering of Format B

The specification describes renderFormatB as a template
`\x7b"type":<V>,<"k1":<V1>,...>\x7d`.  The definitions below follow the
wording of the specification (partition, lexicographic sort, comma
separated entries, no trailing comma); the refinement claims compare
`Sanitised.MarshalJSON` against this rendering. -/

/-- Comma separated concatenation, no trailing comma. -/
def joinComma : List String → String
  | [] => ""
  | [x] => x
  | x :: y :: xs => x ++ "," ++ joinComma (y :: xs)

/-- The rendered form of one non-type entry: `"<key>":<encoded value>`. -/
def jsonEntry (s : Sanitised) (k : String) : String :=
  "\"" ++ k ++ "\":" ++ jsonEncode (mapGetD s k)

/-- Spec-side rendering of Format B, written from the specification:
single out the type value, sort the remaining keys lexicographically,
emit the brace, the `"type":` pair when the type value is non-null with
a separating comma only when other keys follow, the other entries comma
separated, and the closing brace. -/
def specRenderFormatB (s : Sanitised) : String :=
  let typeVal := mapGetD s "type"
  let others := sortKeys ((s.map Prod.fst).filter (fun k => !(k == "type")))
  let typePart :=
    if typeVal.isNull then ""
    else "\"type\":" ++ jsonEncode typeVal ++ (if others.isEmpty then "" else ",")
  "\x7b" ++ typePart ++ joinComma (others.map (jsonEntry s)) ++ "\x7d"

/-! ### Lemmas about the record model -/

theorem mapGet_cons {k' : String} {v' : JValue} {rest : Sanitised}
    {k : String} :
    mapGet ((k', v') :: rest) k = if k' = k then some v' else mapGet rest k := by
  simp only [mapGet, List.find?]
  by_cases hk : k' = k
  · subst hk
    simp
  · have hb : (k' == k) = false := beq_eq_false_iff_ne.mpr hk
    simp [hb, hk]

theorem collectTypeAndKeys_fst (s : Sanitised) :
    (collectTypeAndKeys s).1 = mapGetD s "type" := by
  induction s with
  | nil => rfl
  | cons p rest ih =>
    obtain ⟨k, v⟩ := p
    by_cases hk : k = "type"
    · subst hk
      simp [collectTypeAndKeys, mapGetD, mapGet_cons]
    · simpa [collectTypeAndKeys, mapGetD, mapGet_cons, hk] using ih

theorem collectTypeAndKeys_snd (s : Sanitised) :
    (collectTypeAndKeys s).2 =
      (s.map Prod.fst).filter (fun k => !(k == "type")) := by
  induction s with
  | nil => rfl
  | cons p rest ih =>
    obtain ⟨k, v⟩ := p
    by_cases hk : k = "type"
    · subst hk
      simpa [collectTypeAndKeys] using ih
    · simpa [collectTypeAndKeys, hk] using ih

theorem mapGet_eq_some_of_mem {s : Sanitised} {k : String} {v : JValue}
    (hn : nodupKeys s) (h : (k, v) ∈ s) : mapGet s k = some v := by
  induction s with
  | nil => cases h
  | cons p rest ih =>
    obtain ⟨k', v'⟩ := p
    rcases List.mem_cons.mp h with heq | hmem
    · cases heq
      simp [mapGet_cons]
    · have hn' : nodupKeys rest := (List.nodup_cons.mp hn).2
      have hk : k' ≠ k := by
        intro hkk
        subst hkk
        exact (List.nodup_cons.mp hn).1
          (List.mem_map.mpr ⟨(k', v), hmem, rfl⟩)
      simpa [mapGet_cons, hk] using ih hn' hmem

theorem mem_of_mapGet_eq_some {s : Sanitised} {k : String} {v : JValue}
    (h : mapGet s k = some v) : (k, v) ∈ s := by
  induction s with
  | nil => simp [mapGet] at h
  | cons p rest ih =>
    obtain ⟨k', v'⟩ := p
    by_cases hk : k' = k
    · subst hk
      simp [mapGet_cons] at h
      simp [h]
    · simp only [mapGet_cons, if_neg hk] at h
      exact List.mem_cons.mpr (Or.inr (ih h))

theorem mapGet_eq_none {s : Sanitised} {k : String} :
    mapGet s k = none ↔ k ∉ s.map Prod.fst := by
  induction s with
  | nil => simp [mapGet]
  | cons p rest ih =>
    obtain ⟨k', v'⟩ := p
    by_cases hk : k' = k
    · subst hk
      simp [mapGet_cons]
    · simp only [mapGet_cons, if_neg hk]
      simp only [List.map_cons, List.mem_cons]
      rw [ih]
      constructor
      · intro hnk hor
        rcases hor with h1 | h2
        · exact hk h1.symm
        · exact hnk h2
      · intro hall hmem
        exact hall (Or.inr hmem)

theorem mapGet_perm {s₁ s₂ : Sanitised} (hp : s₁.Perm s₂)
    (hn : nodupKeys s₁) (k : String) : mapGet s₁ k = mapGet s₂ k := by
  have hn₂ : nodupKeys s₂ := ((hp.map Prod.fst).nodup_iff).mp hn
  cases h : mapGet s₁ k with
  | none =>
    have hk : k ∉ s₁.map Prod.fst := mapGet_eq_none.mp h
    have hk₂ : k ∉ s₂.map Prod.fst := fun hm =>
      hk ((hp.map Prod.fst).mem_iff.mpr hm)
    exact (mapGet_eq_none.mpr hk₂).symm
  | some v =>
    have hm : (k, v) ∈ s₂ := hp.subset (mem_of_mapGet_eq_some h)
    exact (mapGet_eq_some_of_mem hn₂ hm).symm

/-! ### Lemmas about sorting and entry rendering -/

theorem sortKeys_sorted (ks : List String) :
    List.Sorted strRel (sortKeys ks) :=
  List.sorted_insertionSort strRel ks

theorem sortKeys_perm (ks : List String) : (sortKeys ks).Perm ks :=
  List.perm_insertionSort strRel ks

theorem sortKeys_eq_of_perm {ks₁ ks₂ : List String} (hp : ks₁.Perm ks₂) :
    sortKeys ks₁ = sortKeys ks₂ :=
  List.eq_of_perm_of_sorted
    (((sortKeys_perm ks₁).trans hp).trans (sortKeys_perm ks₂).symm)
    (sortKeys_sorted ks₁) (sortKeys_sorted ks₂)

theorem encodeEntries_cons₂ (enc : JValue → Except String String)
    (s : Sanitised) (k k2 : String) (rest2 : List String) :
    encodeEntries enc s (k :: k2 :: rest2) =
      match enc (mapGetD s k) with
      | Except.error e => Except.error e
      | Except.ok valBytes =>
        match encodeEntries enc s (k2 :: rest2) with
        | Except.error e => Except.error e
        | Except.ok restBytes =>
          Except.ok ("\"" ++ k ++ "\":" ++ valBytes ++ "," ++ restBytes) :=
  rfl

theorem encodeEntries_ok (s : Sanitised) (ks : List String) :
    encodeEntries (fun v => Except.ok (jsonEncode v)) s ks =
      Except.ok (joinComma (ks.map (jsonEntry s))) := by
  induction ks with
  | nil => rfl
  | cons k rest ih =>
    cases rest with
    | nil => rfl
    | cons k2 rest2 =>
      rw [encodeEntries_cons₂, ih]
      simp [joinComma, jsonEntry, String.append_assoc]

theorem encodeEntries_error {enc : JValue → Except String String}
    {s : Sanitised} {ks : List String} {k : String} (hk : k ∈ ks)
    {e : String} (he : enc (mapGetD s k) = Except.error e) :
    ∃ e2, encodeEntries enc s ks = Except.error e2 := by
  induction ks with
  | nil => cases hk
  | cons k1 rest ih =>
    rcases List.mem_cons.mp hk with heq | hmem
    · subst heq
      exact ⟨e, by simp [encodeEntries, he]⟩
    · cases hr : enc (mapGetD s k1) with
      | error e1 => exact ⟨e1, by simp [encodeEntries, hr]⟩
      | ok vb =>
        obtain ⟨e2, h2⟩ := ih hmem
        cases rest with
        | nil => cases hmem
        | cons a b =>
          exact ⟨e2, by rw [encodeEntries_cons₂]; simp [hr, h2]⟩

theorem encodeEntries_congr {enc : JValue → Except String String}
    {s₁ s₂ : Sanitised} (hget : ∀ k, mapGetD s₁ k = mapGetD s₂ k) :
    ∀ ks, encodeEntries enc s₁ ks = encodeEntries enc s₂ ks
  | [] => rfl
  | [k] => by simp only [encodeEntries, hget k]
  | k :: k2 :: rest => by
    rw [encodeEntries_cons₂, encodeEntries_cons₂, hget k,
      encodeEntries_congr hget (k2 :: rest)]

theorem MarshalYAML_type (s : Sanitised) :
    (Sanitised.MarshalYAML s).type = mapGetD s "type" := by
  induction s with
  | nil => rfl
  | cons p rest ih =>
    obtain ⟨k, v⟩ := p
    by_cases hk : k = "type"
    · subst hk
      simp [Sanitised.MarshalYAML, mapGetD, mapGet_cons]
    · simpa [Sanitised.MarshalYAML, mapGetD, mapGet_cons, hk] using ih

theorem MarshalYAML_inlined (s : Sanitised) :
    (Sanitised.MarshalYAML s).inlined =
      s.filter (fun p => !(p.1 == "type")) := by
  induction s with
  | nil => rfl
  | cons p rest ih =>
    obtain ⟨k, v⟩ := p
    by_cases hk : k = "type"
    · subst hk
      simpa [Sanitised.MarshalYAML] using ih
    · simpa [Sanitised.MarshalYAML, hk] using ih

theorem joinComma_mem_infix {f : String → String} {ks : List String}
    {k : String} (hk : k ∈ ks) :
    ∃ l r, joinComma (ks.map f) = l ++ (f k ++ r) := by
  induction ks with
  | nil => cases hk
  | cons k1 rest ih =>
    rcases List.mem_cons.mp hk with heq | hmem
    · subst heq
      cases rest with
      | nil => exact ⟨"", "", by simp [joinComma]⟩
      | cons a b =>
        refine ⟨"", "," ++ joinComma ((a :: b).map f), ?_⟩
        simp [joinComma, String.append_assoc]
    · obtain ⟨l, r, hl⟩ := ih hmem
      cases rest with
      | nil => cases hmem
      | cons a b =>
        refine ⟨f k1 ++ "," ++ l, r, ?_⟩
        simp only [List.map_cons] at hl ⊢
        simp only [joinComma]
        rw [hl]
        simp [String.append_assoc]

/-- The rendered JSON of a record equals the spec-side Format B
rendering, for every record and without side conditions. -/
theorem MarshalJSON_eq_spec (s : Sanitised) :
    Sanitised.MarshalJSON s = Except.ok (specRenderFormatB s) := by
  simp only [Sanitised.MarshalJSON, Sanitised.MarshalJSONWith,
    specRenderFormatB, collectTypeAndKeys_fst, collectTypeAndKeys_snd,
    encodeEntries_ok]
  by_cases h : (mapGetD s "type").isNull
  · simp [h]
  · simp only [h, Bool.false_eq_true, if_neg, ite_false]
    cases hks :
        sortKeys ((s.map Prod.fst).filter (fun k => !(k == "type"))) with
    | nil => simp [hks, String.append_assoc]
    | cons a b => simp [hks, String.append_assoc]

theorem isNull_eq_true {v : JValue} : v.isNull = true ↔ v = JValue.null := by
  cases v <;> simp [JValue.isNull]

theorem isNull_eq_false {v : JValue} : v.isNull = false ↔ v ≠ JValue.null := by
  cases v <;> simp [JValue.isNull]

theorem mapSet_nil (k : String) (v : JValue) : mapSet [] k v = [(k, v)] := by
  simp [mapSet]

theorem mapSet_type_plugin (t : String) (p : JValue) :
    mapSet [("type", JValue.str t)] "plugin" p =
      [("type", JValue.str t), ("plugin", p)] := by
  simp [mapSet]

theorem mapSet_type_self (t : String) (v : JValue) :
    mapSet [("type", JValue.str t)] t v =
      if t = "type" then [("type", v)]
      else [("type", JValue.str t), (t, v)] := by
  by_cases ht : t = "type"
  · subst ht
    simp [mapSet]
  · have hb : ("type" == t) = false := beq_eq_false_iff_ne.mpr (Ne.symm ht)
    simp [mapSet, hb, ht]

/-! ### Claims -/

/-- Claim C1: on success, SanitizeComponent selects the payload in
strict precedence order: an entry whose key equals the discriminant is
included under that key (and no plugin entry is added); otherwise a
non-null plugin entry is included under "plugin"; otherwise the record
has no payload entry at all, only "type". -/
theorem C1_payload_precedence (h : GenericRecord) (t : String)
    (ht : mapGet h "type" = some (JValue.str t)) :
    ∃ r, SanitizeComponent h = Except.ok r ∧
      (∀ v, mapGet h t = some v →
        mapGet r t = some v ∧ (t ≠ "plugin" → mapGet r "plugin" = none)) ∧
      (mapGet h t = none → ∀ p, mapGet h "plugin" = some p →
        p ≠ JValue.null → r = [("type", JValue.str t), ("plugin", p)]) ∧
      (mapGet h t = none →
        (mapGet h "plugin" = none ∨ mapGet h "plugin" = some JValue.null) →
        r = [("type", JValue.str t)]) := by
  simp only [SanitizeComponent, ht, mapSet_nil]
  cases hvt : mapGet h t with
  | some v =>
    refine ⟨mapSet [("type", JValue.str t)] t v, rfl, ?_, ?_, ?_⟩
    · intro v' hv'
      cases hv'
      rw [mapSet_type_self]
      by_cases htt : t = "type"
      · subst htt
        simp only [if_pos rfl]
        have hv : v = JValue.str "type" := by
          rw [ht] at hvt
          exact (Option.some.inj hvt).symm
        constructor
        · simp [mapGet_cons, hv]
        · intro _
          simp [mapGet_cons, mapGet]
      · simp only [if_neg htt]
        constructor
        · simp [mapGet_cons, Ne.symm htt]
        · intro hpl
          simp [mapGet_cons, mapGet, hpl, Ne.symm hpl]
    · intro hnone
      cases hnone
    · intro hnone
      cases hnone
  | none =>
    cases hp : mapGet h "plugin" with
    | some p =>
      by_cases hn : p.isNull
      · have hpn : p = JValue.null := isNull_eq_true.mp hn
        subst hpn
        refine ⟨[("type", JValue.str t)], by simp [JValue.isNull], ?_, ?_, ?_⟩
        · intro v hv
          cases hv
        · intro _ p' hp' hne
          cases hp'
          exact absurd rfl hne
        · intro _ _
          rfl
      · have hb : p.isNull = false := by
          cases hbt : p.isNull
          · rfl
          · exact absurd hbt hn
        refine ⟨[("type", JValue.str t), ("plugin", p)],
          by simp [hb, mapSet_type_plugin], ?_, ?_, ?_⟩
        · intro v hv
          cases hv
        · intro _ p' hp' _
          cases hp'
          rfl
        · intro _ hor
          rcases hor with h1 | h1
          · cases h1
          · cases h1
            exact absurd rfl (isNull_eq_false.mp hb)
    | none =>
      refine ⟨[("type", JValue.str t)], rfl, ?_, ?_, ?_⟩
      · intro v hv
        cases hv
      · intro _ p' hp' _
        cases hp'
      · intro _ _
        rfl

/-- Witness for C1 at the worked example of the specification: a
record holding a discriminant-named entry and a plugin entry. -/
theorem C1_payload_precedence_witness :
    ∃ r, SanitizeComponent
        [("type", JValue.str "http"),
         ("http", JValue.obj [("url", JValue.str "x")]),
         ("plugin", JValue.obj [("ignored", JValue.bool true)])] =
        Except.ok r ∧
      (∀ v, mapGet
          [("type", JValue.str "http"),
           ("http", JValue.obj [("url", JValue.str "x")]),
           ("plugin", JValue.obj [("ignored", JValue.bool true)])]
          "http" = some v →
        mapGet r "http" = some v ∧
          ("http" ≠ "plugin" → mapGet r "plugin" = none)) ∧
      (mapGet
          [("type", JValue.str "http"),
           ("http", JValue.obj [("url", JValue.str "x")]),
           ("plugin", JValue.obj [("ignored", JValue.bool true)])]
          "http" = none → ∀ p, mapGet
          [("type", JValue.str "http"),
           ("http", JValue.obj [("url", JValue.str "x")]),
           ("plugin", JValue.obj [("ignored", JValue.bool true)])]
          "plugin" = some p →
        p ≠ JValue.null →
        r = [("type", JValue.str "http"), ("plugin", p)]) ∧
      (mapGet
          [("type", JValue.str "http"),
           ("http", JValue.obj [("url", JValue.str "x")]),
           ("plugin", JValue.obj [("ignored", JValue.bool true)])]
          "http" = none →
        (mapGet
          [("type", JValue.str "http"),
           ("http", JValue.obj [("url", JValue.str "x")]),
           ("plugin", JValue.obj [("ignored", JValue.bool true)])]
          "plugin" = none ∨ mapGet
          [("type", JValue.str "http"),
           ("http", JValue.obj [("url", JValue.str "x")]),
           ("plugin", JValue.obj [("ignored", JValue.bool true)])]
          "plugin" = some JValue.null) →
        r = [("type", JValue.str "http")]) :=
  C1_payload_precedence
    [("type", JValue.str "http"),
     ("http", JValue.obj [("url", JValue.str "x")]),
     ("plugin", JValue.obj [("ignored", JValue.bool true)])]
    "http" rfl

/-- Claim C3: SanitizeComponent fails with the missing-type error
exactly when the generic record lacks a "type" key or its value is not
a string; with a string-valued "type" key it returns a record instead
of failing. -/
theorem C3_missing_type_error (h : GenericRecord) :
    (SanitizeComponent h = Except.error missingTypeErr ↔
      ∀ t, mapGet h "type" ≠ some (JValue.str t)) ∧
    ((∃ t, mapGet h "type" = some (JValue.str t)) →
      ∃ r, SanitizeComponent h = Except.ok r) := by
  cases hv : mapGet h "type" with
  | none =>
    refine ⟨⟨fun _ t hc => ?_, fun _ => ?_⟩, ?_⟩
    · cases hc
    · simp [SanitizeComponent, hv]
    · rintro ⟨t, ht⟩
      cases ht
  | some v =>
    cases v with
    | str t =>
      have hok : ∃ r, SanitizeComponent h = Except.ok r := by
        simp only [SanitizeComponent, hv]
        cases hvt : mapGet h t with
        | some v2 => exact ⟨_, rfl⟩
        | none =>
          cases hp : mapGet h "plugin" with
          | some p =>
            cases hn : p.isNull
            · simp only [hn, Bool.false_eq_true, if_false]
              exact ⟨_, rfl⟩
            · simp only [hn, if_true]
              exact ⟨_, rfl⟩
          | none => exact ⟨_, rfl⟩
      refine ⟨⟨fun herr => ?_, fun hall => ?_⟩, fun _ => hok⟩
      · obtain ⟨r, hr⟩ := hok
        rw [hr] at herr
        cases herr
      · exact absurd rfl (hall t)
    | null =>
      exact ⟨⟨fun _ t hc => by simp at hc,
        fun _ => by simp [SanitizeComponent, hv]⟩,
        fun hex => by obtain ⟨t, ht⟩ := hex; simp at ht⟩
    | bool b =>
      exact ⟨⟨fun _ t hc => by simp at hc,
        fun _ => by simp [SanitizeComponent, hv]⟩,
        fun hex => by obtain ⟨t, ht⟩ := hex; simp at ht⟩
    | num n =>
      exact ⟨⟨fun _ t hc => by simp at hc,
        fun _ => by simp [SanitizeComponent, hv]⟩,
        fun hex => by obtain ⟨t, ht⟩ := hex; simp at ht⟩
    | arr xs =>
      exact ⟨⟨fun _ t hc => by simp at hc,
        fun _ => by simp [SanitizeComponent, hv]⟩,
        fun hex => by obtain ⟨t, ht⟩ := hex; simp at ht⟩
    | obj fs =>
      exact ⟨⟨fun _ t hc => by simp at hc,
        fun _ => by simp [SanitizeComponent, hv]⟩,
        fun hex => by obtain ⟨t, ht⟩ := hex; simp at ht⟩

/-- Witness for C3: the empty record fails with the missing-type
error, and a record with a string "type" field succeeds. -/
theorem C3_missing_type_error_witness :
    SanitizeComponent [] = Except.error missingTypeErr ∧
      ∃ r, SanitizeComponent [("type", JValue.str "noop")] = Except.ok r :=
  ⟨(C3_missing_type_error []).1.mpr (fun t hc => by cases hc),
   (C3_missing_type_error [("type", JValue.str "noop")]).2 ⟨"noop", rfl⟩⟩

/-- Claim C4: every record returned by a successful SanitizeComponent
call maps "type" to a string and has at most two entries. -/
theorem C4_reduced_record_shape {h : GenericRecord} {r : Sanitised}
    (hok : SanitizeComponent h = Except.ok r) :
    (∃ t, mapGet r "type" = some (JValue.str t)) ∧ r.length ≤ 2 := by
  cases hv : mapGet h "type" with
  | none => simp [SanitizeComponent, hv] at hok
  | some v =>
    cases v with
    | str t =>
      cases hvt : mapGet h t with
      | some v2 =>
        have hcomp : SanitizeComponent h =
            Except.ok (mapSet [("type", JValue.str t)] t v2) := by
          simp [SanitizeComponent, hv, hvt, mapSet_nil]
        rw [hcomp] at hok
        cases hok
        rw [mapSet_type_self]
        by_cases htt : t = "type"
        · subst htt
          simp only [if_pos rfl]
          have hv2 : v2 = JValue.str "type" := by
            rw [hv] at hvt
            exact (Option.some.inj hvt).symm
          subst hv2
          exact ⟨⟨"type", by simp [mapGet_cons]⟩, by simp⟩
        · simp only [if_neg htt]
          exact ⟨⟨t, by simp [mapGet_cons]⟩, by simp⟩
      | none =>
        cases hp : mapGet h "plugin" with
        | some p =>
          cases hn : p.isNull
          · have hcomp : SanitizeComponent h =
                Except.ok [("type", JValue.str t), ("plugin", p)] := by
              simp [SanitizeComponent, hv, hvt, hp, hn, mapSet_nil,
                mapSet_type_plugin]
            rw [hcomp] at hok
            cases hok
            exact ⟨⟨t, by simp [mapGet_cons]⟩, by simp⟩
          · have hcomp : SanitizeComponent h =
                Except.ok [("type", JValue.str t)] := by
              simp [SanitizeComponent, hv, hvt, hp, hn, mapSet_nil]
            rw [hcomp] at hok
            cases hok
            exact ⟨⟨t, by simp [mapGet_cons]⟩, by simp⟩
        | none =>
          have hcomp : SanitizeComponent h =
              Except.ok [("type", JValue.str t)] := by
            simp [SanitizeComponent, hv, hvt, hp, mapSet_nil]
          rw [hcomp] at hok
          cases hok
          exact ⟨⟨t, by simp [mapGet_cons]⟩, by simp⟩
    | null => simp [SanitizeComponent, hv] at hok
    | bool b => simp [SanitizeComponent, hv] at hok
    | num n => simp [SanitizeComponent, hv] at hok
    | arr xs => simp [SanitizeComponent, hv] at hok
    | obj fs => simp [SanitizeComponent, hv] at hok

/-- Witness for C4 at the plugin-fallback example of the
specification. -/
theorem C4_reduced_record_shape_witness :
    (∃ t, mapGet
        [("type", JValue.str "custom"),
         ("plugin", JValue.obj [("driver", JValue.str "z")])]
        "type" = some (JValue.str t)) ∧
      List.length
        [("type", JValue.str "custom"),
         ("plugin", JValue.obj [("driver", JValue.str "z")])] ≤ 2 :=
  C4_reduced_record_shape
    (h := [("type", JValue.str "custom"),
           ("plugin", JValue.obj [("driver", JValue.str "z")])]) rfl

/-- Claim C2: whenever the record maps "type" to a non-null value, the
JSON bytes start with the opening brace immediately followed by the
substring rendering the type pair, ahead of everything else. -/
theorem C2_type_first (s : Sanitised) (v : JValue)
    (ht : mapGet s "type" = some v) (hnn : v ≠ JValue.null) :
    ∃ rest, Sanitised.MarshalJSON s =
      Except.ok ("\x7b" ++ ("\"type\":" ++ (jsonEncode v ++ rest))) := by
  have hval : mapGetD s "type" = v := by simp [mapGetD, ht]
  have hb : v.isNull = false := isNull_eq_false.mpr hnn
  refine ⟨(if (sortKeys ((s.map Prod.fst).filter
        (fun k => !(k == "type")))).isEmpty then "" else ",") ++
      (joinComma ((sortKeys ((s.map Prod.fst).filter
        (fun k => !(k == "type")))).map (jsonEntry s)) ++ "\x7d"), ?_⟩
  rw [MarshalJSON_eq_spec s]
  simp only [specRenderFormatB, hval, hb]
  simp [String.append_assoc]

/-- Witness for C2 on a record with a string type and one other key. -/
theorem C2_type_first_witness :
    ∃ rest, Sanitised.MarshalJSON [("type", JValue.str "t"), ("a", JValue.null)] =
      Except.ok ("\x7b" ++ ("\"type\":" ++ (jsonEncode (JValue.str "t") ++ rest))) :=
  C2_type_first [("type", JValue.str "t"), ("a", JValue.null)]
    (JValue.str "t") rfl (by simp)

/-- Claim C5: rendering is deterministic: the output depends only on
the key/value pairs of the record, not on the iteration order of the
underlying map, for any value encoder; and the non-type keys are
emitted sorted lexicographically. -/
theorem C5_deterministic_ordering (enc : JValue → Except String String)
    (s₁ s₂ : Sanitised) (hp : s₁.Perm s₂) (hn : nodupKeys s₁) :
    Sanitised.MarshalJSONWith enc s₁ = Sanitised.MarshalJSONWith enc s₂ ∧
      List.Sorted strRel (sortKeys (collectTypeAndKeys s₁).2) := by
  constructor
  · have hget : ∀ k, mapGetD s₁ k = mapGetD s₂ k := fun k => by
      simp [mapGetD, mapGet_perm hp hn k]
    have hkeys : sortKeys (collectTypeAndKeys s₁).2 =
        sortKeys (collectTypeAndKeys s₂).2 := by
      rw [collectTypeAndKeys_snd, collectTypeAndKeys_snd]
      exact sortKeys_eq_of_perm ((hp.map Prod.fst).filter _)
    have htv : (collectTypeAndKeys s₁).1 = (collectTypeAndKeys s₂).1 := by
      rw [collectTypeAndKeys_fst, collectTypeAndKeys_fst]
      exact hget "type"
    simp only [Sanitised.MarshalJSONWith]
    rw [htv, hkeys, encodeEntries_congr hget]
  · exact sortKeys_sorted _

/-- Witness for C5: two iteration orders of the same two-entry map. -/
theorem C5_deterministic_ordering_witness :
    Sanitised.MarshalJSONWith (fun v => Except.ok (jsonEncode v))
        [("a", JValue.num 1), ("type", JValue.str "t")] =
      Sanitised.MarshalJSONWith (fun v => Except.ok (jsonEncode v))
        [("type", JValue.str "t"), ("a", JValue.num 1)] ∧
      List.Sorted strRel (sortKeys (collectTypeAndKeys
        [("a", JValue.num 1), ("type", JValue.str "t")]).2) :=
  C5_deterministic_ordering (fun v => Except.ok (jsonEncode v))
    [("a", JValue.num 1), ("type", JValue.str "t")]
    [("type", JValue.str "t"), ("a", JValue.num 1)]
    (List.Perm.swap _ _ _) (by decide)

/-- Claim C6: a failure of the external value encoder on the type value
or on any collected key aborts the whole render with an error; no
partial output is produced. -/
theorem C6_encoding_failure_aborts (enc : JValue → Except String String)
    (s : Sanitised)
    (hfail : ((collectTypeAndKeys s).1.isNull = false ∧
        ∃ e, enc (collectTypeAndKeys s).1 = Except.error e) ∨
      ∃ k, k ∈ (collectTypeAndKeys s).2 ∧
        ∃ e, enc (mapGetD s k) = Except.error e) :
    ∃ e2, Sanitised.MarshalJSONWith enc s = Except.error e2 := by
  rcases hfail with ⟨hnn, e, he⟩ | ⟨k, hk, e, he⟩
  · exact ⟨e, by simp [Sanitised.MarshalJSONWith, hnn, he]⟩
  · have hk' : k ∈ sortKeys (collectTypeAndKeys s).2 :=
      ((sortKeys_perm _).mem_iff).mpr hk
    obtain ⟨e2, h2⟩ := encodeEntries_error hk' he
    cases hnn : (collectTypeAndKeys s).1.isNull
    · cases henc : enc (collectTypeAndKeys s).1 with
      | error e3 =>
        exact ⟨e3, by simp [Sanitised.MarshalJSONWith, hnn, henc]⟩
      | ok tb =>
        exact ⟨e2, by simp [Sanitised.MarshalJSONWith, hnn, henc, h2]⟩
    · exact ⟨e2, by simp [Sanitised.MarshalJSONWith, hnn, h2]⟩

/-- Witness for C6 with an encoder that always fails, on a record whose
type value is non-null. -/
theorem C6_encoding_failure_aborts_witness :
    ∃ e2, Sanitised.MarshalJSONWith (fun _ => Except.error "boom")
        [("type", JValue.str "t")] = Except.error e2 :=
  C6_encoding_failure_aborts (fun _ => Except.error "boom")
    [("type", JValue.str "t")] (Or.inl ⟨rfl, "boom", rfl⟩)

/-- Claim C7: the empty reduced record and the record with a null type
and nothing else both render to exactly the two bytes of an empty
object, and in general the JSON output matches the spec template:
brace, optional type pair, sorted comma separated entries with no
trailing comma and no extra whitespace, brace. -/
theorem C7_template_rendering :
    Sanitised.MarshalJSON [] = Except.ok "{}" ∧
    Sanitised.MarshalJSON [("type", JValue.null)] = Except.ok "{}" ∧
    ∀ s : Sanitised,
      Sanitised.MarshalJSON s = Except.ok (specRenderFormatB s) :=
  ⟨rfl, rfl, MarshalJSON_eq_spec⟩

/-- Claim C9: when the type value is absent or null, the type pair is
suppressed entirely and the output is the brace-delimited comma
separated list of the remaining entries, with no leading comma. -/
theorem C9_null_type_suppressed (s : Sanitised)
    (ht : mapGet s "type" = none ∨ mapGet s "type" = some JValue.null) :
    Sanitised.MarshalJSON s =
      Except.ok ("\x7b" ++ (joinComma
        ((sortKeys ((s.map Prod.fst).filter (fun k => !(k == "type")))).map
          (jsonEntry s)) ++ "\x7d")) := by
  have hnull : mapGetD s "type" = JValue.null := by
    rcases ht with h | h <;> simp [mapGetD, h]
  rw [MarshalJSON_eq_spec s]
  simp only [specRenderFormatB, hnull]
  simp [JValue.isNull, String.append_assoc]

/-- Witness for C9 on a record with a single non-type key and no type
key at all. -/
theorem C9_null_type_suppressed_witness :
    Sanitised.MarshalJSON [("x", JValue.num 5)] =
      Except.ok ("\x7b" ++ (joinComma
        ((sortKeys (([("x", JValue.num 5)].map Prod.fst).filter
          (fun k => !(k == "type")))).map
            (jsonEntry [("x", JValue.num 5)])) ++ "\x7d")) :=
  C9_null_type_suppressed [("x", JValue.num 5)] (Or.inl rfl)

/-- Claim C10: non-type keys are written verbatim between the quote
characters, without JSON string escaping; only the value goes through
the encoder.  A key containing a quote or backslash therefore appears
unescaped in the output. -/
theorem C10_keys_unescaped {s : Sanitised} {k : String} {v : JValue}
    (hn : nodupKeys s) (hmem : (k, v) ∈ s) (hk : k ≠ "type") :
    ∃ l r, Sanitised.MarshalJSON s =
      Except.ok (l ++ ("\"" ++ (k ++ ("\":" ++ (jsonEncode v ++ r))))) := by
  have hval : mapGetD s k = v := by
    simp [mapGetD, mapGet_eq_some_of_mem hn hmem]
  have hkmem : k ∈ sortKeys ((s.map Prod.fst).filter
      (fun x => !(x == "type"))) := by
    apply ((sortKeys_perm _).mem_iff).mpr
    apply List.mem_filter.mpr
    exact ⟨List.mem_map.mpr ⟨(k, v), hmem, rfl⟩, by simp [hk]⟩
  obtain ⟨l, r, hl⟩ := joinComma_mem_infix (f := jsonEntry s) hkmem
  refine ⟨"\x7b" ++ (if (mapGetD s "type").isNull then ""
      else "\"type\":" ++ jsonEncode (mapGetD s "type") ++
        (if (sortKeys ((s.map Prod.fst).filter
          (fun x => !(x == "type")))).isEmpty then "" else ",")) ++ l,
    r ++ "\x7d", ?_⟩
  rw [MarshalJSON_eq_spec s]
  simp only [specRenderFormatB]
  rw [hl]
  simp [jsonEntry, hval, String.append_assoc]

/-- Witness for C10 with a key containing a double quote character. -/
theorem C10_keys_unescaped_witness :
    ∃ l r, Sanitised.MarshalJSON
        [("type", JValue.str "t"), ("a\"b", JValue.bool true)] =
      Except.ok (l ++ ("\"" ++ ("a\"b" ++ ("\":" ++
        (jsonEncode (JValue.bool true) ++ r))))) :=
  C10_keys_unescaped (by decide) (List.mem_cons.mpr (Or.inr
    (List.mem_cons.mpr (Or.inl rfl)))) (by decide)

/-- Claim C8: MarshalYAML always declares "type" as the first emitted
field, unconditionally, even when the discriminant value is null, with
every remaining entry of the record inlined as a sibling after it. -/
theorem C8_yaml_type_first (s : Sanitised) :
    yamlFields (Sanitised.MarshalYAML s) =
      ("type", mapGetD s "type") ::
        s.filter (fun p => !(p.1 == "type")) := by
  rw [yamlFields, MarshalYAML_type, MarshalYAML_inlined]

end Config
